import Mathlib

/-!
Verification of the audit-log rendering core of the secrethub CLI:
the column-width allocator, the fixed-width wrapping row formatter,
the structured (JSON) row formatter, the audit-path orchestration
branch, and the paginated output sink.

Go machine integers are modelled as `Int`; Go integer division and
remainder truncate toward zero, which is `Int.tdiv` / `Int.tmod`.
Go strings are modelled as lists of characters.  Code that can panic
at runtime (index out of range, division by zero, negative slice or
repeat counts) is modelled in `Option`, with `none` for a panic.
-/

namespace SecretHubCLI

/-- Go integer division: truncation toward zero. -/
def godiv (a b : Int) : Int := Int.tdiv a b

/-- Go integer remainder: sign follows the dividend. -/
def gomod (a b : Int) : Int := Int.tmod a b

/-- Go strings, modelled as lists of characters (`len` is `List.length`). -/
abbrev Str := List Char

/-- One column of the audit table: a header name and an optional maximum
width (0 means uncapped).  Mirrors `auditTableColumn`. -/
structure auditTableColumn where
  name : String
  maxWidth : Int
deriving DecidableEq, Repr

/-- The fixed-width table formatter: a total table width and the column
descriptions.  Mirrors `columnFormatter` (the memoized
`computedColumnWidths` cache is the pure function `columnWidths`, which
the source recomputes idempotently). -/
structure columnFormatter where
  tableWidth : Int
  columns : List auditTableColumn
deriving DecidableEq, Repr

/-- The pin condition of one scan of the allocator loop: an unresolved
column (`res[i] == 0`) whose `maxWidth` is set and strictly below the
current equal share. -/
def pinCond (wpc m r : Int) : Prop := r = 0 ∧ m ≠ 0 ∧ m < wpc

instance (wpc m r : Int) : Decidable (pinCond wpc m r) := by
  unfold pinCond; infer_instance

/-- One entry of an allocator scan: pin the column to its `maxWidth` when
the pin condition holds, keep it unchanged otherwise. -/
def pinStep (wpc : Int) (p : Int × Int) : Int :=
  if pinCond wpc p.1 p.2 then p.1 else p.2

/-- One full scan of the allocator loop over `(maxWidth, res)` pairs. -/
def pinPass (wpc : Int) (pairs : List (Int × Int)) : List Int :=
  pairs.map (pinStep wpc)

/-- Whether a scan pinned at least one new column (`adjusted` in the source). -/
def pinAdjusted (wpc : Int) (pairs : List (Int × Int)) : Bool :=
  pairs.any fun p => decide (pinCond wpc p.1 p.2)

/-- Sum of the nonzero (already resolved) widths, as subtracted from
`widthLeft` in the source. -/
def sumNonzero (l : List Int) : Int :=
  (l.filter fun w => decide (w ≠ 0)).sum

/-- Number of nonzero (already resolved) widths, as subtracted from
`count` in the source. -/
def countNonzero (l : List Int) : Nat :=
  (l.filter fun w => decide (w ≠ 0)).length

/-- The iterative balancing loop of `columnFormatter.columnWidths`,
fuelled (the source loop always terminates because every `adjusted`
scan strictly decreases the number of unresolved columns; the caller
passes ample fuel).  Returns the resolved-width array and the final
equal share `widthPerColumn`. -/
def allocLoop (tableWidth : Int) (maxWs : List Int) :
    Nat → Int → List Int → List Int × Int
  | 0, wpc, res => (res, wpc)
  | fuel+1, wpc, res =>
    if pinAdjusted wpc (maxWs.zip res) then
      let res2 := pinPass wpc (maxWs.zip res)
      let widthLeft := tableWidth - 2 * ((maxWs.length : Int) - 1) - sumNonzero res2
      let count : Int := (maxWs.length : Int) - (countNonzero res2 : Int)
      if count = 0 then
        (res2.map fun w => w + godiv widthLeft (maxWs.length : Int), wpc)
      else
        allocLoop tableWidth maxWs fuel (godiv widthLeft count) res2
    else
      (res, wpc)

/-- The initial ("naive") equal share `(tableWidth - 2*(n-1)) / n`. -/
def naiveShare (tableWidth : Int) (cols : List auditTableColumn) : Int :=
  godiv (tableWidth - 2 * ((cols.length : Int) - 1)) (cols.length : Int)

/-- The allocator loop run from the all-unresolved state, as in
`columnWidths`: result array plus final `widthPerColumn`. -/
def columnWidthsCore (tableWidth : Int) (cols : List auditTableColumn) :
    List Int × Int :=
  allocLoop tableWidth (cols.map auditTableColumn.maxWidth) (cols.length + 1)
    (naiveShare tableWidth cols) (List.replicate cols.length 0)

/-- The column-width allocator `columnFormatter.columnWidths`: run the
balancing loop, then give every still-unresolved column the final equal
share. -/
def columnWidthsOf (tableWidth : Int) (cols : List auditTableColumn) : List Int :=
  let p := columnWidthsCore tableWidth cols
  p.1.map fun w => if w = 0 then p.2 else w

/-- Method form of the allocator on a `columnFormatter`. -/
def columnFormatter.columnWidths (f : columnFormatter) : List Int :=
  columnWidthsOf f.tableWidth f.columns

/-- Number of wrapped lines one cell needs at width `w`:
`len/w`, plus one when `len%w != 0` (the first pass of `formatRow`).
The division is the source's machine division; `w = 0` panics there, so
this is only evaluated under a `w ≠ 0` guard. -/
def linesOf (w : Int) (cell : Str) : Int :=
  godiv (cell.length : Int) w + (if gomod (cell.length : Int) w = 0 then 0 else 1)

/-- First pass of `columnFormatter.formatRow`: fold the per-cell line
counts into `maxLinesPerCell` (accumulator starts at 1).  `none` models
the panics of the source: index out of range when the row is longer than
the width array, division by zero when a used width is zero. -/
def maxLinesCalc (widths : List Int) : List Str → Nat → Int → Option Int
  | [], _, acc => some acc
  | cell :: rest, i, acc =>
    match widths[i]? with
    | none => none
    | some w =>
      if w = 0 then none
      else
        let lines := linesOf w cell
        maxLinesCalc widths rest (i + 1) (if acc < lines then lines else acc)

/-- The chunking loop of `formatRow` for one cell: repeatedly slice off
`w`-character chunks while the remaining cell is longer than `w`, then
right-pad the final remainder with spaces to the full width.  `none`
models the slice-bounds panic on a negative width (and exhausted fuel,
unreachable for the fuel the caller supplies). -/
def chunkCell (w : Int) : Nat → Str → Option (List Str)
  | 0, _ => none
  | fuel+1, cell =>
    if w < (cell.length : Int) then
      if w < 0 then none
      else (chunkCell w fuel (cell.drop w.toNat)).map (cell.take w.toNat :: ·)
    else
      some [cell ++ List.replicate (w - (cell.length : Int)).toNat ' ']

/-- Second pass of `formatRow`: split every cell into its chunk column
and pad it with blank lines up to `maxL` lines.  `none` models the
source's panics (bad index, negative width inside `chunkCell`, writing a
chunk row beyond `maxL`). -/
def cellsSplit (widths : List Int) (maxL : Nat) : List Str → Nat → Option (List (List Str))
  | [], _ => some []
  | cell :: rest, i =>
    match widths[i]? with
    | none => none
    | some w =>
      match chunkCell w (cell.length + 1) cell with
      | none => none
      | some chunks =>
        if maxL < chunks.length then none
        else
          match cellsSplit widths maxL rest (i + 1) with
          | none => none
          | some others =>
            some ((chunks ++ List.replicate (maxL - chunks.length)
              (List.replicate w.toNat ' ')) :: others)

/-- Final pass of `formatRow`: line `j` joins the `j`-th chunk of every
cell with the two-space separator and ends with a newline; the lines are
concatenated. -/
def renderLines (maxL : Nat) (cols : List (List Str)) : Str :=
  ((List.range maxL).map fun j =>
    List.intercalate [' ', ' '] (cols.map fun c => c.getD j []) ++ ['\n']).flatten

/-- The fixed-width wrapping formatter `columnFormatter.formatRow`:
wrap every cell at its column width and emit `maxLinesPerCell` output
lines.  `none` models a runtime panic of the source. -/
def columnFormatter.formatRow (f : columnFormatter) (row : List Str) : Option Str :=
  match maxLinesCalc f.columnWidths row 0 1 with
  | none => none
  | some maxL =>
    match cellsSplit f.columnWidths maxL.toNat row 0 with
    | none => none
    | some cols => some (renderLines maxL.toNat cols)

/-- The fixed-width formatter prints a header row. -/
def columnFormatter.printHeader (_ : columnFormatter) : Bool := true

/-- Byte-wise ordering on modelled Go strings, used for the sorted key
order of the structured encoder. -/
def keyLt : Str → Str → Bool
  | [], [] => false
  | [], _ :: _ => true
  | _ :: _, [] => false
  | a :: as, b :: bs => if a < b then true else if b < a then false else keyLt as bs

/-- Go map assignment `m[k] = v`, on a key-sorted association list:
replace the binding of `k` when present, insert it in order otherwise. -/
def insertPair (k v : Str) : List (Str × Str) → List (Str × Str)
  | [] => [(k, v)]
  | (k2, v2) :: rest =>
    if k = k2 then (k, v) :: rest
    else if keyLt k k2 then (k, v) :: (k2, v2) :: rest
    else (k2, v2) :: insertPair k v rest

/-- Lookup in the modelled Go map. -/
def lookupPair (k : Str) : List (Str × Str) → Option Str
  | [] => none
  | (k2, v) :: rest => if k = k2 then some v else lookupPair k rest

/-- The map built by `jsonFormatter.formatRow`: `jsonMap[fields[i]] =
row[i]` for ascending `i`, later indices overwriting earlier ones. -/
def buildMap (fields row : List Str) : List (Str × Str) :=
  (fields.zip row).foldl (fun m kv => insertPair kv.1 kv.2 m) []

/-- JSON string escaping for the characters that matter to the claims
(quote, backslash, newline), modelling `encoding/json`. -/
def escapeChar (c : Char) : Str :=
  if c = '"' ∨ c = '\\' then ['\\', c]
  else if c = '\n' then ['\\', 'n'] else [c]

/-- Escape a modelled Go string for JSON output. -/
def escape (s : Str) : Str := (s.map escapeChar).flatten

/-- Encode one `"key":"value"` member. -/
def encodePair (p : Str × Str) : Str :=
  ('"' :: escape p.1) ++ ('"' :: ':' :: '"' :: escape p.2) ++ ['"']

/-- Encode the whole object, keys in the map's (sorted) order, as
`json.Marshal` does for a `map[string]string`. -/
def encodeObj (ps : List (Str × Str)) : Str :=
  ('\x7b' :: List.intercalate [','] (ps.map encodePair)) ++ ['\x7d']

/-- The structured formatter: configured field names.  Mirrors
`jsonFormatter`. -/
structure jsonFormatter where
  fields : List Str
deriving DecidableEq, Repr

/-- The structured formatter prints no header row. -/
def jsonFormatter.printHeader (_ : jsonFormatter) : Bool := false

/-- The structured formatter `jsonFormatter.formatRow`: error (`none`)
when the field count differs from the row length, otherwise one
newline-terminated encoded record (`json.Marshal` of a
`map[string]string` never fails). -/
def jsonFormatter.formatRow (f : jsonFormatter) (row : List Str) : Option Str :=
  if f.fields.length ≠ row.length then none
  else some (encodeObj (buildMap f.fields row) ++ ['\n'])

/-- The shared base columns of `newBaseAuditTable`: AUTHOR and EVENT,
then the mid columns, then IP ADDRESS and DATE. -/
def baseAuditTableColumns (midColumns : List auditTableColumn) : List auditTableColumn :=
  [⟨"AUTHOR", 32⟩, ⟨"EVENT", 22⟩] ++ midColumns ++
    [⟨"IP ADDRESS", 45⟩, ⟨"DATE", 22⟩]

/-- Columns of the secret-scoped audit table (no mid columns). -/
def secretAuditTableColumns : List auditTableColumn := baseAuditTableColumns []

/-- Columns of the repository-scoped audit table (extra uncapped EVENT
SUBJECT column). -/
def repoAuditTableColumns : List auditTableColumn :=
  baseAuditTableColumns [⟨"EVENT SUBJECT", 0⟩]

/-- External effects of `iterAndAuditTable` that reach the client or the
network, in the order the source performs them. -/
inductive NetCall where
  | newClient
  | getTree
  | dirExists
  | repoEventIterator
  | secretEventIterator
deriving DecidableEq, Repr

/-- Result of the input path's external parsers: whether it parses as a
repository path, whether it parses as a secret path, and whether it
carries an explicit version selector.  Modelled abstractly; the real
parsers never accept one path as both a repository path (two segments)
and a secret path (at least three segments). -/
structure AuditPath where
  repoPath : Option String
  secretPath : Option String
  hasVersion : Bool
deriving DecidableEq, Repr

/-- Responses of the external client used by `iterAndAuditTable`:
whether client construction succeeds, whether the tree fetch succeeds,
and the directory-existence check (`none` models an `Exists` error). -/
structure AuditClientEnv where
  clientOk : Bool
  treeOk : Bool
  dirExists : Option Bool
deriving DecidableEq, Repr

/-- The distinguished failures of `iterAndAuditTable`. -/
inductive AuditError where
  | cannotAuditSecretVersion
  | cannotAuditDir
  | noValidRepoOrSecretPath
  | clientError
  | treeError
deriving DecidableEq, Repr

/-- Which iterator/table pair the orchestrator constructed. -/
inductive AuditSetup where
  | repoAudit
  | secretAudit
deriving DecidableEq, Repr

/-- The path-resolution branch of the audit command,
`AuditCommand.iterAndAuditTable`: first value is the outcome, second the
trace of client/network effects actually performed, in order. -/
def iterAndAuditTable (env : AuditClientEnv) (p : AuditPath) :
    Except AuditError AuditSetup × List NetCall :=
  match p.repoPath with
  | some _ =>
    if env.clientOk then
      if env.treeOk then
        (.ok .repoAudit, [.newClient, .getTree, .repoEventIterator])
      else (.error .treeError, [.newClient, .getTree])
    else (.error .clientError, [.newClient])
  | none =>
    match p.secretPath with
    | some _ =>
      if p.hasVersion then (.error .cannotAuditSecretVersion, [])
      else if env.clientOk then
        match env.dirExists with
        | some true => (.error .cannotAuditDir, [.newClient, .dirExists])
        | some false =>
          (.ok .secretAudit, [.newClient, .dirExists, .secretEventIterator])
        | none =>
          (.ok .secretAudit, [.newClient, .dirExists, .secretEventIterator])
      else (.error .clientError, [.newClient])
    | none => (.error .noValidRepoOrSecretPath, [])

/-- State of the paginated output sink `paginatedWriter`.  The one-shot
`done` channel (buffered, written once by the watcher when the pager
process exits) is modelled by two flags: `doneFired` (the watcher has
sent) and `doneToken` (the single value is still in the channel, i.e.
sent and not yet received). -/
structure paginatedWriter where
  doneFired : Bool
  doneToken : Bool
  closed : Bool
deriving DecidableEq, Repr

/-- The watcher observes the pager process exit and sends on `done`
(single-shot). -/
def paginatedWriter.fireDone (p : paginatedWriter) : paginatedWriter :=
  { p with doneFired := true, doneToken := true }

/-- Mirrors `paginatedWriter.IsClosed`: true immediately when already
latched; otherwise a non-blocking receive on `done` which, when the
notification has fired, consumes it and latches `closed`. -/
def paginatedWriter.IsClosed (p : paginatedWriter) : Bool × paginatedWriter :=
  if p.closed then (true, p)
  else if p.doneToken then (true, { p with closed := true, doneToken := false })
  else (false, p)

/-- Mirrors `paginatedWriter.Close`: close the pipe, then, unless
`closed` is already latched, block on `done`.  The boolean is true when
the call must block waiting for the notification (it was not yet
available); a subsequent fire would unblock it. -/
def paginatedWriter.Close (p : paginatedWriter) : Bool × paginatedWriter :=
  if p.closed then (false, p)
  else (!p.doneToken, { p with doneToken := false })

/-- Number of zero (still unresolved) entries of a width array. -/
def zerosCount (l : List Int) : Nat :=
  (l.filter fun w => decide (w = 0)).length

/-- Right-padding of a cell to a column width, as built by the final
write of the chunking loop. -/
def padCell (w : Int) (cell : Str) : Str :=
  cell ++ List.replicate (w - (cell.length : Int)).toNat ' '

theorem godiv_eq_ediv {a b : Int} (ha : 0 ≤ a) (hb : 0 ≤ b) : godiv a b = a / b :=
  Int.tdiv_eq_ediv ha hb

theorem godiv_neg_left (a b : Int) : godiv (-a) b = -godiv a b :=
  Int.neg_tdiv a b

theorem godiv_nonneg {a b : Int} (ha : 0 ≤ a) (hb : 0 ≤ b) : 0 ≤ godiv a b := by
  rw [godiv_eq_ediv ha hb]
  exact Int.ediv_nonneg ha hb

theorem mul_godiv_le {a b : Int} (ha : 0 ≤ a) (hb : 0 < b) : b * godiv a b ≤ a := by
  rw [godiv_eq_ediv ha hb.le]
  have h1 := Int.ediv_add_emod a b
  have h2 := Int.emod_nonneg a (ne_of_gt hb)
  omega

theorem one_le_godiv {a b : Int} (hb : 0 < b) (hba : b ≤ a) : 1 ≤ godiv a b := by
  rw [godiv_eq_ediv (hb.le.trans hba) hb.le]
  calc (1 : Int) = b / b := (Int.ediv_self (ne_of_gt hb)).symm
    _ ≤ a / b := Int.ediv_le_ediv hb hba

theorem godiv_nonpos {a b : Int} (ha : a ≤ 0) (hb : 0 < b) : godiv a b ≤ 0 := by
  have h1 : 0 ≤ godiv (-a) b := godiv_nonneg (by omega) hb.le
  have h2 := godiv_neg_left (-a) b
  rw [neg_neg] at h2
  omega

theorem abs_sub_mul_godiv_le {a b : Int} (hb : 0 < b) :
    |a - b * godiv a b| ≤ b - 1 := by
  rcases le_or_lt 0 a with ha | ha
  · rw [godiv_eq_ediv ha hb.le]
    have h1 := Int.ediv_add_emod a b
    have h2 := Int.emod_nonneg a (ne_of_gt hb)
    have h3 := Int.emod_lt_of_pos a hb
    rw [abs_le]
    omega
  · have h0 : (0 : Int) ≤ -a := by omega
    have h4 := godiv_neg_left (-a) b
    rw [neg_neg] at h4
    rw [h4, godiv_eq_ediv h0 hb.le, mul_neg, sub_neg_eq_add, abs_le]
    have h1 := Int.ediv_add_emod (-a) b
    have h2 := Int.emod_nonneg (-a) (ne_of_gt hb)
    have h3 := Int.emod_lt_of_pos (-a) hb
    omega

theorem getElem?_zip_eq {α β : Type} (as : List α) (bs : List β) (i : Nat) :
    (as.zip bs)[i]? = as[i]?.bind fun a => bs[i]?.map fun b => (a, b) := by
  induction as generalizing bs i with
  | nil => simp
  | cons a as ih =>
    cases bs with
    | nil => simp
    | cons b bs =>
      cases i with
      | zero => simp
      | succ n => simpa using ih bs n

theorem zerosCount_add_countNonzero (l : List Int) :
    zerosCount l + countNonzero l = l.length := by
  induction l with
  | nil => simp [zerosCount, countNonzero]
  | cons w l ih =>
    by_cases h : w = 0 <;>
      simp [zerosCount, countNonzero, List.filter, h] at ih ⊢ <;> omega

theorem zerosCount_le_length (l : List Int) : zerosCount l ≤ l.length :=
  List.length_filter_le _ l

theorem sumNonzero_eq_sum (l : List Int) : sumNonzero l = l.sum := by
  induction l with
  | nil => rfl
  | cons w l ih =>
    by_cases h : w = 0 <;> simp [sumNonzero, List.filter, h] at ih ⊢ <;> omega

theorem zerosCount_eq_zero_iff (l : List Int) :
    zerosCount l = 0 ↔ ∀ w ∈ l, w ≠ 0 := by
  induction l with
  | nil => simp [zerosCount]
  | cons w l ih =>
    by_cases h : w = 0
    · simp [zerosCount, List.filter, h]
    · simp only [zerosCount, List.filter, decide_eq_true_eq, if_neg h] at ih ⊢
      simp [h, ih]

theorem fill_sum (l : List Int) (c : Int) :
    (l.map fun w => if w = 0 then c else w).sum = l.sum + (zerosCount l : Int) * c := by
  induction l with
  | nil => simp [zerosCount]
  | cons w l ih =>
    by_cases h : w = 0 <;> simp [zerosCount, List.filter, h] at ih ⊢ <;>
      rw [ih] <;> ring

theorem fill_noop (l : List Int) (c : Int) (h : ∀ w ∈ l, w ≠ 0) :
    (l.map fun w => if w = 0 then c else w) = l := by
  induction l with
  | nil => rfl
  | cons w l ih =>
    simp only [List.map_cons, if_neg (h w (by simp)), ih fun x hx => h x (by simp [hx])]

theorem map_add_sum (l : List Int) (c : Int) :
    (l.map fun w => w + c).sum = l.sum + (l.length : Int) * c := by
  induction l with
  | nil => simp
  | cons w l ih =>
    simp [ih]
    ring

theorem sum_le_sum_pointwise :
    ∀ (rs ms : List Int), rs.length = ms.length →
      (∀ (i : Nat) (m r : Int), ms[i]? = some m → rs[i]? = some r → r ≤ m) →
      rs.sum ≤ ms.sum := by
  intro rs
  induction rs with
  | nil =>
    intro ms h _
    have : ms = [] := List.length_eq_zero.mp h.symm
    simp [this]
  | cons r rs ih =>
    intro ms h hp
    cases ms with
    | nil => simp at h
    | cons m mt =>
      simp only [List.sum_cons]
      have h0 : r ≤ m := hp 0 m r (by simp) (by simp)
      have ht : rs.sum ≤ mt.sum := by
        refine ih mt (by simpa using h) fun i mm rr hm hr => ?_
        exact hp (i + 1) mm rr (by simpa using hm) (by simpa using hr)
      omega

theorem zerosCount_cons (x : Int) (xs : List Int) :
    zerosCount (x :: xs) = (if x = 0 then 1 else 0) + zerosCount xs := by
  by_cases h : x = 0
  · simp [zerosCount, List.filter, h]
    omega
  · simp [zerosCount, List.filter, h]

theorem pinPass_getElem? (wpc : Int) (l : List (Int × Int)) (i : Nat) :
    (pinPass wpc l)[i]? = l[i]?.map (pinStep wpc) := by
  simp [pinPass]

theorem length_pinPass (wpc : Int) (l : List (Int × Int)) :
    (pinPass wpc l).length = l.length := by
  simp [pinPass]

theorem pinAdjusted_exists {wpc : Int} {l : List (Int × Int)}
    (h : pinAdjusted wpc l = true) : ∃ p ∈ l, pinCond wpc p.1 p.2 := by
  simpa [pinAdjusted] using h

theorem pinPass_zip_getElem? (wpc : Int) (ms res : List Int) (i : Nat)
    (m r : Int) (hm : ms[i]? = some m) (hr : res[i]? = some r) :
    (pinPass wpc (ms.zip res))[i]? = some (pinStep wpc (m, r)) := by
  rw [pinPass_getElem?, getElem?_zip_eq, hm, hr]
  rfl

theorem pinPass_stats (wpc : Int) :
    ∀ l : List (Int × Int), (∀ p ∈ l, 0 ≤ p.1) →
      zerosCount (pinPass wpc l) ≤ zerosCount (l.map Prod.snd) ∧
      (pinPass wpc l).sum ≤ (l.map Prod.snd).sum +
        ((zerosCount (l.map Prod.snd) : Int) - (zerosCount (pinPass wpc l) : Int)) *
          (wpc - 1) ∧
      (pinAdjusted wpc l = true →
        zerosCount (pinPass wpc l) < zerosCount (l.map Prod.snd)) := by
  intro l
  induction l with
  | nil => simp [pinPass, pinAdjusted, zerosCount]
  | cons p t ih =>
    intro h
    obtain ⟨ih1, ih2, ih3⟩ := ih fun q hq => h q (List.mem_cons_of_mem p hq)
    have hp1 : 0 ≤ p.1 := h p (List.mem_cons_self p t)
    by_cases hc : pinCond wpc p.1 p.2
    · obtain ⟨hr0, hm0, hmlt⟩ := hc
      have hpass : pinPass wpc (p :: t) = p.1 :: pinPass wpc t := by
        simp [pinPass, pinStep, pinCond, hr0, hm0, hmlt]
      have hmap : (p :: t).map Prod.snd = p.2 :: t.map Prod.snd := rfl
      rw [hpass, hmap, zerosCount_cons, zerosCount_cons, if_neg hm0, if_pos hr0]
      refine ⟨by omega, ?_, fun _ => by omega⟩
      simp only [List.sum_cons, hr0]
      have hple : p.1 ≤ wpc - 1 := by omega
      push_cast
      nlinarith [ih2]
    · have hpass : pinPass wpc (p :: t) = p.2 :: pinPass wpc t := by
        simp [pinPass, pinStep, if_neg hc]
      have hmap : (p :: t).map Prod.snd = p.2 :: t.map Prod.snd := rfl
      have hadj : pinAdjusted wpc (p :: t) = pinAdjusted wpc t := by
        simp [pinAdjusted, List.any_cons, hc]
      rw [hpass, hmap, zerosCount_cons, zerosCount_cons, hadj]
      by_cases h2 : p.2 = 0
      · simp only [if_pos h2]
        refine ⟨by omega, ?_, fun ha => by have := ih3 ha; omega⟩
        simp only [List.sum_cons]
        push_cast
        nlinarith [ih2]
      · simp only [if_neg h2]
        refine ⟨by omega, ?_, fun ha => by have := ih3 ha; omega⟩
        simp only [List.sum_cons]
        push_cast
        nlinarith [ih2]

theorem length_pinPass_zip (wpc : Int) (ms res : List Int)
    (hlen : res.length = ms.length) :
    (pinPass wpc (ms.zip res)).length = ms.length := by
  rw [length_pinPass, List.length_zip, hlen, min_self]

theorem allocLoop_length (W : Int) (ms : List Int) :
    ∀ (fuel : Nat) (wpc : Int) (res : List Int), res.length = ms.length →
      (allocLoop W ms fuel wpc res).1.length = ms.length := by
  intro fuel
  induction fuel with
  | zero => intro wpc res hlen; simpa [allocLoop] using hlen
  | succ f ih =>
    intro wpc res hlen
    by_cases hadj : pinAdjusted wpc (ms.zip res) = true
    · have hlen2 := length_pinPass_zip wpc ms res hlen
      by_cases hcnt : (ms.length : Int) - (countNonzero (pinPass wpc (ms.zip res)) : Int) = 0
      · simp [allocLoop, hadj, hcnt, hlen2]
      · simpa [allocLoop, hadj, hcnt] using ih _ _ hlen2
    · simpa [allocLoop, hadj] using hlen

theorem allocLoop_persist (W : Int) (ms : List Int) :
    ∀ (fuel : Nat) (wpc : Int) (res : List Int),
      res.length = ms.length →
      (∀ (i : Nat) (m : Int), ms[i]? = some m → m = 0 → res[i]? = some 0) →
      (∃ j : Nat, ms[j]? = some 0) →
      (∀ (i : Nat) (m : Int), ms[i]? = some m → m = 0 →
        (allocLoop W ms fuel wpc res).1[i]? = some 0) ∧
      (∀ (i : Nat) (r : Int), res[i]? = some r → r ≠ 0 →
        (allocLoop W ms fuel wpc res).1[i]? = some r) := by
  intro fuel
  induction fuel with
  | zero =>
    intro wpc res hlen hun _
    exact ⟨fun i m hm h0 => by simpa [allocLoop] using hun i m hm h0,
           fun i r hr _ => by simpa [allocLoop] using hr⟩
  | succ f ih =>
    intro wpc res hlen hun hex
    by_cases hadj : pinAdjusted wpc (ms.zip res) = true
    · have hlen2 := length_pinPass_zip wpc ms res hlen
      have hun2 : ∀ (i : Nat) (m : Int), ms[i]? = some m → m = 0 →
          (pinPass wpc (ms.zip res))[i]? = some 0 := by
        intro i m hm h0
        have hr := hun i m hm h0
        rw [pinPass_zip_getElem? wpc ms res i m 0 hm hr]
        simp [pinStep, pinCond, h0]
      have hcnt : ¬((ms.length : Int) -
          (countNonzero (pinPass wpc (ms.zip res)) : Int) = 0) := by
        obtain ⟨j, hj⟩ := hex
        have h0m : (0 : Int) ∈ pinPass wpc (ms.zip res) := by
          have := hun2 j 0 hj rfl
          obtain ⟨hjl, hjv⟩ := List.getElem?_eq_some.mp this
          exact hjv ▸ List.getElem_mem hjl
        have hz : zerosCount (pinPass wpc (ms.zip res)) ≠ 0 := by
          intro h
          exact (zerosCount_eq_zero_iff _ |>.mp h) 0 h0m rfl
        have hc := zerosCount_add_countNonzero (pinPass wpc (ms.zip res))
        rw [hlen2] at hc
        omega
      have heq : allocLoop W ms (f + 1) wpc res =
          allocLoop W ms f
            (godiv (W - 2 * ((ms.length : Int) - 1) -
              sumNonzero (pinPass wpc (ms.zip res)))
              ((ms.length : Int) - (countNonzero (pinPass wpc (ms.zip res)) : Int)))
            (pinPass wpc (ms.zip res)) := by
        simp [allocLoop, hadj, hcnt]
      obtain ⟨ih1, ih2⟩ := ih _ (pinPass wpc (ms.zip res)) hlen2 hun2 hex
      refine ⟨fun i m hm h0 => heq ▸ ih1 i m hm h0, fun i r hr hr0 => ?_⟩
      have hil : i < ms.length := by
        have := (List.getElem?_eq_some.mp hr).1
        omega
      have hm : ms[i]? = some ms[i] := List.getElem?_eq_getElem hil
      have hr2 : (pinPass wpc (ms.zip res))[i]? = some r := by
        rw [pinPass_zip_getElem? wpc ms res i ms[i] r hm hr]
        simp [pinStep, pinCond, hr0]
      exact heq ▸ ih2 i r hr2 hr0
    · constructor
      · intro i m hm h0
        simpa [allocLoop, hadj] using hun i m hm h0
      · intro i r hr _
        simpa [allocLoop, hadj] using hr

theorem pinned_entry_ge_one (ms res : List Int) (hcap : ∀ m ∈ ms, 0 ≤ m)
    (hlen : res.length = ms.length)
    (hinv : ∀ (i : Nat) (m r : Int), ms[i]? = some m → res[i]? = some r →
      r = 0 ∨ (r = m ∧ m ≠ 0))
    {r : Int} (hr : r ∈ res) (hr0 : r ≠ 0) : 1 ≤ r := by
  obtain ⟨i, hi⟩ := List.getElem?_of_mem hr
  have hil : i < ms.length := by
    have := (List.getElem?_eq_some.mp hi).1
    omega
  have hm : ms[i]? = some ms[i] := List.getElem?_eq_getElem hil
  rcases hinv i ms[i] r hm hi with h0 | ⟨heq, hne⟩
  · exact absurd h0 hr0
  · have := hcap ms[i] (List.getElem_mem hil)
    omega

theorem pinned_sum_le (ms res : List Int) (hcap : ∀ m ∈ ms, 0 ≤ m)
    (hlen : res.length = ms.length)
    (hinv : ∀ (i : Nat) (m r : Int), ms[i]? = some m → res[i]? = some r →
      r = 0 ∨ (r = m ∧ m ≠ 0)) : res.sum ≤ ms.sum := by
  refine sum_le_sum_pointwise res ms hlen fun i m r hm hr => ?_
  rcases hinv i m r hm hr with h0 | ⟨heq, _⟩
  · have hml : i < ms.length := (List.getElem?_eq_some.mp hm).1
    have := hcap m ((List.getElem?_eq_some.mp hm).2 ▸ List.getElem_mem hml)
    omega
  · omega

theorem allocLoop_sound (W : Int) (ms : List Int) (hcap : ∀ m ∈ ms, 0 ≤ m) :
    ∀ (fuel : Nat) (wpc : Int) (res : List Int),
      res.length = ms.length →
      (∀ (i : Nat) (m r : Int), ms[i]? = some m → res[i]? = some r →
        r = 0 ∨ (r = m ∧ m ≠ 0)) →
      1 ≤ zerosCount res →
      zerosCount res ≤ fuel →
      wpc = godiv (W - 2 * ((ms.length : Int) - 1) - res.sum) (zerosCount res : Int) →
      |((allocLoop W ms fuel wpc res).1.map fun w =>
          if w = 0 then (allocLoop W ms fuel wpc res).2 else w).sum -
        (W - 2 * ((ms.length : Int) - 1))| ≤ (ms.length : Int) - 1 ∧
      ((ms.length : Int) + ms.sum ≤ W - 2 * ((ms.length : Int) - 1) →
        ∀ w ∈ (allocLoop W ms fuel wpc res).1.map fun w =>
          if w = 0 then (allocLoop W ms fuel wpc res).2 else w, 1 ≤ w) := by
  intro fuel
  induction fuel with
  | zero =>
    intro wpc res hlen hinv hz hfuel hwpc
    omega
  | succ f ih =>
    intro wpc res hlen hinv hz hfuel hwpc
    have hnlen : 1 ≤ ms.length := by
      have := zerosCount_le_length res
      omega
    have hzpos : (0 : Int) < (zerosCount res : Int) := by exact_mod_cast hz
    by_cases hadj : pinAdjusted wpc (ms.zip res) = true
    · -- a scan pinned at least one column
      have hlen2 := length_pinPass_zip wpc ms res hlen
      have hmapsnd : (ms.zip res).map Prod.snd = res :=
        List.map_snd_zip ms res hlen.le
      have hcapzip : ∀ p ∈ ms.zip res, 0 ≤ p.1 := fun p hp =>
        hcap p.1 (List.of_mem_zip hp).1
      obtain ⟨hst1, hst2, hst3⟩ := pinPass_stats wpc (ms.zip res) hcapzip
      rw [hmapsnd] at hst1 hst2 hst3
      have hzdrop := hst3 hadj
      obtain ⟨p, hpmem, hpc⟩ := pinAdjusted_exists hadj
      have hp1 : 0 ≤ p.1 := hcapzip p hpmem
      have hwpc2 : 2 ≤ wpc := by
        obtain ⟨_, hne, hlt⟩ := hpc
        omega
      have hL : 0 ≤ W - 2 * ((ms.length : Int) - 1) - res.sum := by
        by_contra h
        have := godiv_nonpos (a := W - 2 * ((ms.length : Int) - 1) - res.sum)
          (b := (zerosCount res : Int)) (by omega) hzpos
        omega
      have hzw : (zerosCount res : Int) * wpc ≤
          W - 2 * ((ms.length : Int) - 1) - res.sum := hwpc ▸ mul_godiv_le hL hzpos
      have hinv2 : ∀ (i : Nat) (m r2 : Int), ms[i]? = some m →
          (pinPass wpc (ms.zip res))[i]? = some r2 → r2 = 0 ∨ (r2 = m ∧ m ≠ 0) := by
        intro i m r2 hm hr2
        have hil : i < ms.length := (List.getElem?_eq_some.mp hm).1
        have hrl : i < res.length := by omega
        have hr : res[i]? = some res[i] := List.getElem?_eq_getElem hrl
        rw [pinPass_zip_getElem? wpc ms res i m res[i] hm hr] at hr2
        have hr2v : r2 = pinStep wpc (m, res[i]) := by
          injection hr2 with h
          exact h.symm
        by_cases hpc2 : pinCond wpc m res[i]
        · right
          rw [hr2v]
          unfold pinStep
          rw [if_pos hpc2]
          exact ⟨rfl, hpc2.2.1⟩
        · rw [hr2v]
          unfold pinStep
          rw [if_neg hpc2]
          exact hinv i m res[i] hm hr
      have hkpos : 1 ≤ (zerosCount res : Int) - (zerosCount (pinPass wpc (ms.zip res)) : Int) := by
        omega
      have hmul : ((zerosCount res : Int) - (zerosCount (pinPass wpc (ms.zip res)) : Int)) * wpc ≤
          (zerosCount res : Int) * wpc := by
        apply mul_le_mul_of_nonneg_right _ (by omega)
        omega
      have hL2 : (zerosCount res : Int) - (zerosCount (pinPass wpc (ms.zip res)) : Int) ≤
          W - 2 * ((ms.length : Int) - 1) - (pinPass wpc (ms.zip res)).sum := by
        nlinarith [hst2]
      have hL2pos : 1 ≤ W - 2 * ((ms.length : Int) - 1) - (pinPass wpc (ms.zip res)).sum := by
        omega
      have hcnt_eq : (ms.length : Int) - (countNonzero (pinPass wpc (ms.zip res)) : Int) =
          (zerosCount (pinPass wpc (ms.zip res)) : Int) := by
        have := zerosCount_add_countNonzero (pinPass wpc (ms.zip res))
        rw [hlen2] at this
        omega
      have hwl_eq : W - 2 * ((ms.length : Int) - 1) - sumNonzero (pinPass wpc (ms.zip res)) =
          W - 2 * ((ms.length : Int) - 1) - (pinPass wpc (ms.zip res)).sum := by
        rw [sumNonzero_eq_sum]
      by_cases hz2 : zerosCount (pinPass wpc (ms.zip res)) = 0
      · -- every column is now resolved: distribute the leftover over all
        have hc0 : (ms.length : Int) - (countNonzero (pinPass wpc (ms.zip res)) : Int) = 0 := by
          rw [hcnt_eq, hz2]
          rfl
        have heq : allocLoop W ms (f + 1) wpc res =
            ((pinPass wpc (ms.zip res)).map fun w =>
              w + godiv (W - 2 * ((ms.length : Int) - 1) -
                sumNonzero (pinPass wpc (ms.zip res))) (ms.length : Int), wpc) := by
          simp [allocLoop, hadj, hc0]
        have hnpos : (0 : Int) < (ms.length : Int) := by exact_mod_cast hnlen
        have hd0 : 0 ≤ godiv (W - 2 * ((ms.length : Int) - 1) -
            (pinPass wpc (ms.zip res)).sum) (ms.length : Int) :=
          godiv_nonneg (by omega) hnpos.le
        have hge1 : ∀ r2 ∈ pinPass wpc (ms.zip res), 1 ≤ r2 := fun r2 hr2 =>
          pinned_entry_ge_one ms (pinPass wpc (ms.zip res)) hcap hlen2 hinv2 hr2
            ((zerosCount_eq_zero_iff _).mp hz2 r2 hr2)
        have hge1m : ∀ w ∈ (pinPass wpc (ms.zip res)).map fun w =>
            w + godiv (W - 2 * ((ms.length : Int) - 1) -
              (pinPass wpc (ms.zip res)).sum) (ms.length : Int), 1 ≤ w := by
          intro w hw
          obtain ⟨r2, hr2, hrw⟩ := List.mem_map.mp hw
          have := hge1 r2 hr2
          omega
        have hfillnoop : ∀ (l : List Int), (∀ w ∈ l, 1 ≤ w) →
            (l.map fun w => if w = 0 then wpc else w) = l := fun l h =>
          fill_noop l wpc fun w hw => by have := h w hw; omega
        rw [heq]
        simp only [hwl_eq]
        rw [hfillnoop _ hge1m]
        constructor
        · rw [map_add_sum _ _, hlen2]
          have hb := abs_sub_mul_godiv_le
            (a := W - 2 * ((ms.length : Int) - 1) - (pinPass wpc (ms.zip res)).sum)
            (b := (ms.length : Int)) hnpos
          have hshape : (pinPass wpc (ms.zip res)).sum + (ms.length : Int) *
              godiv (W - 2 * ((ms.length : Int) - 1) -
                (pinPass wpc (ms.zip res)).sum) (ms.length : Int) -
              (W - 2 * ((ms.length : Int) - 1)) =
              -((W - 2 * ((ms.length : Int) - 1) - (pinPass wpc (ms.zip res)).sum) -
                (ms.length : Int) * godiv (W - 2 * ((ms.length : Int) - 1) -
                  (pinPass wpc (ms.zip res)).sum) (ms.length : Int)) := by ring
          rw [hshape, abs_neg]
          exact hb
        · exact fun _ => hge1m
      · -- unresolved columns remain: recompute the share and loop
        have hcne : ¬((ms.length : Int) -
            (countNonzero (pinPass wpc (ms.zip res)) : Int) = 0) := by
          rw [hcnt_eq]
          exact_mod_cast hz2
        have heq : allocLoop W ms (f + 1) wpc res =
            allocLoop W ms f
              (godiv (W - 2 * ((ms.length : Int) - 1) -
                sumNonzero (pinPass wpc (ms.zip res)))
                ((ms.length : Int) - (countNonzero (pinPass wpc (ms.zip res)) : Int)))
              (pinPass wpc (ms.zip res)) := by
          simp [allocLoop, hadj, hcne]
        rw [heq]
        refine ih _ (pinPass wpc (ms.zip res)) hlen2 hinv2 (by omega) (by omega) ?_
        rw [hwl_eq, hcnt_eq]
    · -- no scan progress: unresolved columns all get the current share
      have heq : allocLoop W ms (f + 1) wpc res = (res, wpc) := by
        simp [allocLoop, hadj]
      rw [heq]
      have hsum := fill_sum res wpc
      constructor
      · rw [hsum, hwpc]
        have hb := abs_sub_mul_godiv_le
          (a := W - 2 * ((ms.length : Int) - 1) - res.sum)
          (b := (zerosCount res : Int)) hzpos
        have hshape : res.sum + (zerosCount res : Int) *
            godiv (W - 2 * ((ms.length : Int) - 1) - res.sum) (zerosCount res : Int) -
            (W - 2 * ((ms.length : Int) - 1)) =
            -((W - 2 * ((ms.length : Int) - 1) - res.sum) -
              (zerosCount res : Int) * godiv (W - 2 * ((ms.length : Int) - 1) - res.sum)
                (zerosCount res : Int)) := by ring
        rw [hshape, abs_neg]
        have hzn : (zerosCount res : Int) ≤ (ms.length : Int) := by
          have := zerosCount_le_length res
          omega
        omega
      · intro hbig w hw
        obtain ⟨r, hrmem, hrw⟩ := List.mem_map.mp hw
        by_cases hr0 : r = 0
        · rw [if_pos hr0] at hrw
          rw [← hrw, hwpc]
          have hrs : res.sum ≤ ms.sum := pinned_sum_le ms res hcap hlen hinv
          have hzn : (zerosCount res : Int) ≤ (ms.length : Int) := by
            have := zerosCount_le_length res
            omega
          exact one_le_godiv hzpos (by omega)
        · rw [if_neg hr0] at hrw
          rw [← hrw]
          exact pinned_entry_ge_one ms res hcap hlen hinv hrmem hr0

theorem zerosCount_replicate_zero (n : Nat) :
    zerosCount (List.replicate n 0) = n := by
  induction n with
  | zero => rfl
  | succ k ih =>
    rw [List.replicate_succ, zerosCount_cons, if_pos rfl, ih]
    omega

theorem replicate_zero_getElem? (n i : Nat) (hi : i < n) :
    (List.replicate n (0 : Int))[i]? = some 0 := by
  have hl : i < (List.replicate n (0 : Int)).length := by
    simpa using hi
  rw [List.getElem?_eq_getElem hl, List.getElem_replicate]

theorem pinAdjusted_of_getElem (wpc : Int) (ms res : List Int) (i : Nat) (m r : Int)
    (hm : ms[i]? = some m) (hr : res[i]? = some r) (hc : pinCond wpc m r) :
    pinAdjusted wpc (ms.zip res) = true := by
  have hzip : (ms.zip res)[i]? = some (m, r) := by
    rw [getElem?_zip_eq, hm, hr]
    rfl
  have hmem : (m, r) ∈ ms.zip res := by
    obtain ⟨h1, h2⟩ := List.getElem?_eq_some.mp hzip
    exact h2 ▸ List.getElem_mem h1
  have : ∃ p ∈ ms.zip res, pinCond wpc p.1 p.2 := ⟨(m, r), hmem, hc⟩
  simpa [pinAdjusted, List.any_eq_true] using this

theorem count_ne_zero_of_uncapped (wpc : Int) (ms res : List Int)
    (hlen : res.length = ms.length)
    (hun : ∀ (i : Nat) (m : Int), ms[i]? = some m → m = 0 → res[i]? = some 0)
    (hex : ∃ j : Nat, ms[j]? = some 0) :
    ¬((ms.length : Int) - (countNonzero (pinPass wpc (ms.zip res)) : Int) = 0) := by
  have hlen2 := length_pinPass_zip wpc ms res hlen
  obtain ⟨j, hj⟩ := hex
  have hr := hun j 0 hj rfl
  have hj2 : (pinPass wpc (ms.zip res))[j]? = some 0 := by
    rw [pinPass_zip_getElem? wpc ms res j 0 0 hj hr]
    simp [pinStep, pinCond]
  have h0m : (0 : Int) ∈ pinPass wpc (ms.zip res) := by
    obtain ⟨hjl, hjv⟩ := List.getElem?_eq_some.mp hj2
    exact hjv ▸ List.getElem_mem hjl
  have hz : zerosCount (pinPass wpc (ms.zip res)) ≠ 0 := fun h =>
    (zerosCount_eq_zero_iff _ |>.mp h) 0 h0m rfl
  have hc := zerosCount_add_countNonzero (pinPass wpc (ms.zip res))
  rw [hlen2] at hc
  omega

theorem allocLoop_step_adjusted (W : Int) (ms : List Int) (f : Nat) (wpc : Int)
    (res : List Int) (hadj : pinAdjusted wpc (ms.zip res) = true)
    (hcne : ¬((ms.length : Int) - (countNonzero (pinPass wpc (ms.zip res)) : Int) = 0)) :
    allocLoop W ms (f + 1) wpc res =
      allocLoop W ms f
        (godiv (W - 2 * ((ms.length : Int) - 1) -
          sumNonzero (pinPass wpc (ms.zip res)))
          ((ms.length : Int) - (countNonzero (pinPass wpc (ms.zip res)) : Int)))
        (pinPass wpc (ms.zip res)) := by
  simp [allocLoop, hadj, hcne]

/-- C1, amended with the hypothesis that some column is uncapped (when
every column has a cap and all get pinned, the leftover-width
distribution of the source raises pinned columns above their caps; see
the counterexample): under that hypothesis, every column whose
`maxWidth` is set and strictly below the naive equal share receives
exactly its `maxWidth`, and every uncapped column receives at least the
final equalized share. -/
theorem columnWidths_cap_pinned_of_uncapped (W : Int) (cols : List auditTableColumn)
    (huncap : ∃ j : Nat, (cols.map auditTableColumn.maxWidth)[j]? = some 0) :
    (∀ (i : Nat) (c : auditTableColumn), cols[i]? = some c → c.maxWidth ≠ 0 →
      c.maxWidth < naiveShare W cols →
      (columnWidthsOf W cols)[i]? = some c.maxWidth) ∧
    (∀ (i : Nat) (c : auditTableColumn), cols[i]? = some c → c.maxWidth = 0 →
      ∃ v : Int, (columnWidthsOf W cols)[i]? = some v ∧
        (columnWidthsCore W cols).2 ≤ v) := by
  have hlen0 : (List.replicate cols.length (0 : Int)).length =
      (cols.map auditTableColumn.maxWidth).length := by simp
  have hun0 : ∀ (i : Nat) (m : Int),
      (cols.map auditTableColumn.maxWidth)[i]? = some m → m = 0 →
      (List.replicate cols.length (0 : Int))[i]? = some 0 := by
    intro i m hm _
    have : i < (cols.map auditTableColumn.maxWidth).length :=
      (List.getElem?_eq_some.mp hm).1
    exact replicate_zero_getElem? cols.length i (by simpa using this)
  constructor
  · intro i c hc hne hlt
    have hm : (cols.map auditTableColumn.maxWidth)[i]? = some c.maxWidth := by
      rw [List.getElem?_map, hc]
      rfl
    have hil : i < cols.length := by
      have := (List.getElem?_eq_some.mp hc).1
      omega
    have hr0 : (List.replicate cols.length (0 : Int))[i]? = some 0 :=
      replicate_zero_getElem? cols.length i hil
    have hpc : pinCond (naiveShare W cols) c.maxWidth 0 := ⟨rfl, hne, hlt⟩
    have hadj := pinAdjusted_of_getElem (naiveShare W cols)
      (cols.map auditTableColumn.maxWidth) (List.replicate cols.length 0)
      i c.maxWidth 0 hm hr0 hpc
    have hcne := count_ne_zero_of_uncapped (naiveShare W cols)
      (cols.map auditTableColumn.maxWidth) (List.replicate cols.length 0)
      hlen0 hun0 huncap
    have hstep := allocLoop_step_adjusted W (cols.map auditTableColumn.maxWidth)
      cols.length (naiveShare W cols) (List.replicate cols.length 0) hadj hcne
    have hr2 : (pinPass (naiveShare W cols)
        ((cols.map auditTableColumn.maxWidth).zip (List.replicate cols.length 0)))[i]? =
        some c.maxWidth := by
      rw [pinPass_zip_getElem? _ _ _ i c.maxWidth 0 hm hr0]
      unfold pinStep
      rw [if_pos hpc]
    have hlen2 := length_pinPass_zip (naiveShare W cols)
      (cols.map auditTableColumn.maxWidth) (List.replicate cols.length 0) hlen0
    have hun2 : ∀ (i : Nat) (m : Int),
        (cols.map auditTableColumn.maxWidth)[i]? = some m → m = 0 →
        (pinPass (naiveShare W cols)
          ((cols.map auditTableColumn.maxWidth).zip
            (List.replicate cols.length 0)))[i]? = some 0 := by
      intro i2 m2 hm2 h02
      have hr02 := hun0 i2 m2 hm2 h02
      rw [pinPass_zip_getElem? _ _ _ i2 m2 0 hm2 hr02]
      simp [pinStep, pinCond, h02]
    obtain ⟨_, hpers⟩ := allocLoop_persist W (cols.map auditTableColumn.maxWidth)
      cols.length _ _ hlen2 hun2 huncap
    have hout : (columnWidthsCore W cols).1[i]? = some c.maxWidth := by
      unfold columnWidthsCore
      rw [hstep]
      exact hpers i c.maxWidth hr2 hne
    unfold columnWidthsOf
    rw [List.getElem?_map, hout]
    simp [hne]
  · intro i c hc h0
    have hm : (cols.map auditTableColumn.maxWidth)[i]? = some 0 := by
      rw [List.getElem?_map, hc]
      simpa using h0
    by_cases hadj : pinAdjusted (naiveShare W cols)
        ((cols.map auditTableColumn.maxWidth).zip (List.replicate cols.length 0)) = true
    · have hcne := count_ne_zero_of_uncapped (naiveShare W cols)
        (cols.map auditTableColumn.maxWidth) (List.replicate cols.length 0)
        hlen0 hun0 huncap
      have hstep := allocLoop_step_adjusted W (cols.map auditTableColumn.maxWidth)
        cols.length (naiveShare W cols) (List.replicate cols.length 0) hadj hcne
      have hlen2 := length_pinPass_zip (naiveShare W cols)
        (cols.map auditTableColumn.maxWidth) (List.replicate cols.length 0) hlen0
      have hun2 : ∀ (i2 : Nat) (m2 : Int),
          (cols.map auditTableColumn.maxWidth)[i2]? = some m2 → m2 = 0 →
          (pinPass (naiveShare W cols)
            ((cols.map auditTableColumn.maxWidth).zip
              (List.replicate cols.length 0)))[i2]? = some 0 := by
        intro i2 m2 hm2 h02
        have hr02 := hun0 i2 m2 hm2 h02
        rw [pinPass_zip_getElem? _ _ _ i2 m2 0 hm2 hr02]
        simp [pinStep, pinCond, h02]
      obtain ⟨hpun, _⟩ := allocLoop_persist W (cols.map auditTableColumn.maxWidth)
        cols.length _ _ hlen2 hun2 huncap
      have hout : (columnWidthsCore W cols).1[i]? = some 0 := by
        unfold columnWidthsCore
        rw [hstep]
        exact hpun i 0 hm rfl
      refine ⟨(columnWidthsCore W cols).2, ?_, le_refl _⟩
      unfold columnWidthsOf
      rw [List.getElem?_map, hout]
      rfl
    · have hout : (columnWidthsCore W cols).1[i]? = some 0 := by
        unfold columnWidthsCore
        unfold allocLoop
        rw [if_neg hadj]
        exact hun0 i 0 hm rfl
      refine ⟨(columnWidthsCore W cols).2, ?_, le_refl _⟩
      unfold columnWidthsOf
      rw [List.getElem?_map, hout]
      rfl

/-- C1 counterexample: at table width 200 the secret audit table has
every cap strictly below the naive equal share (48), all four columns
get pinned, and the leftover distribution of the source raises AUTHOR
(cap 32) to 50 — so a capped column does not receive exactly its
`maxWidth`. -/
theorem columnWidths_cap_exceeded_cex :
    secretAuditTableColumns[0]? = some ⟨"AUTHOR", 32⟩ ∧
    (32 : Int) ≠ 0 ∧ (32 : Int) < naiveShare 200 secretAuditTableColumns ∧
    (columnWidthsOf 200 secretAuditTableColumns)[0]? = some 50 ∧
    ¬((columnWidthsOf 200 secretAuditTableColumns)[0]? = some 32) := by
  decide

/-- Witness for the amended C1 at the repository audit table and width
200: AUTHOR (cap 32, below the naive share 38) receives exactly 32, and
the uncapped EVENT SUBJECT column receives at least the final share. -/
theorem columnWidths_cap_pinned_of_uncapped_witness :
    (columnWidthsOf 200 repoAuditTableColumns)[0]? = some 32 ∧
    ∃ v : Int, (columnWidthsOf 200 repoAuditTableColumns)[2]? = some v ∧
      (columnWidthsCore 200 repoAuditTableColumns).2 ≤ v := by
  have h := columnWidths_cap_pinned_of_uncapped 200 repoAuditTableColumns ⟨2, by decide⟩
  refine ⟨?_, h.2 2 ⟨"EVENT SUBJECT", 0⟩ (by decide) (by decide)⟩
  exact h.1 0 ⟨"AUTHOR", 32⟩ (by decide) (by decide) (by decide)

/-- C2: for every valid input (non-empty column list, caps nonnegative
as the data model requires), the sum of the returned widths differs
from `tableWidth - 2*(n-1)` by at most `n-1`; and when the table width
is sufficiently large relative to the column count — at least
`2*(n-1) + n + sum(caps)` — every returned width is at least 1. -/
theorem columnWidths_sum_within_and_positive (W : Int) (cols : List auditTableColumn)
    (hne : cols ≠ []) (hcap : ∀ c ∈ cols, 0 ≤ c.maxWidth) :
    |(columnWidthsOf W cols).sum - (W - 2 * ((cols.length : Int) - 1))| ≤
      (cols.length : Int) - 1 ∧
    ((cols.length : Int) + (cols.map auditTableColumn.maxWidth).sum ≤
        W - 2 * ((cols.length : Int) - 1) →
      ∀ w ∈ columnWidthsOf W cols, 1 ≤ w) := by
  have hcap2 : ∀ m ∈ cols.map auditTableColumn.maxWidth, 0 ≤ m := by
    intro m hm
    obtain ⟨c, hc, rfl⟩ := List.mem_map.mp hm
    exact hcap c hc
  have hnpos : 0 < cols.length := List.length_pos.mpr hne
  have hlen : (List.replicate cols.length (0 : Int)).length =
      (cols.map auditTableColumn.maxWidth).length := by simp
  have hinv : ∀ (i : Nat) (m r : Int),
      (cols.map auditTableColumn.maxWidth)[i]? = some m →
      (List.replicate cols.length (0 : Int))[i]? = some r →
      r = 0 ∨ (r = m ∧ m ≠ 0) := by
    intro i m r _ hr
    left
    have hil : i < cols.length := by
      have := (List.getElem?_eq_some.mp hr).1
      simpa using this
    have h0 := replicate_zero_getElem? cols.length i hil
    rw [h0] at hr
    injection hr with h
    omega
  have hz : 1 ≤ zerosCount (List.replicate cols.length (0 : Int)) := by
    rw [zerosCount_replicate_zero]
    omega
  have hfuel : zerosCount (List.replicate cols.length (0 : Int)) ≤ cols.length + 1 := by
    rw [zerosCount_replicate_zero]
    omega
  have hwpc : naiveShare W cols =
      godiv (W - 2 * (((cols.map auditTableColumn.maxWidth).length : Int) - 1) -
        (List.replicate cols.length (0 : Int)).sum)
        ((zerosCount (List.replicate cols.length (0 : Int))) : Int) := by
    rw [zerosCount_replicate_zero]
    simp [naiveShare, List.sum_replicate]
  have h := allocLoop_sound W (cols.map auditTableColumn.maxWidth) hcap2
    (cols.length + 1) (naiveShare W cols) (List.replicate cols.length 0)
    hlen hinv hz hfuel hwpc
  simpa [columnWidthsOf, columnWidthsCore, List.length_map] using h

/-- Witness for C2 at the secret audit table and width 200: the sum of
the widths is within 3 of 194 and every width is at least 1. -/
theorem columnWidths_sum_within_and_positive_witness :
    |(columnWidthsOf 200 secretAuditTableColumns).sum -
      (200 - 2 * ((secretAuditTableColumns.length : Int) - 1))| ≤
      (secretAuditTableColumns.length : Int) - 1 ∧
    ∀ w ∈ columnWidthsOf 200 secretAuditTableColumns, 1 ≤ w := by
  have h := columnWidths_sum_within_and_positive 200 secretAuditTableColumns
    (by decide) (by decide)
  exact ⟨h.1, h.2 (by decide)⟩

theorem columnWidthsOf_length (W : Int) (cols : List auditTableColumn) :
    (columnWidthsOf W cols).length = cols.length := by
  unfold columnWidthsOf columnWidthsCore
  rw [List.length_map, allocLoop_length _ _ _ _ _ (by simp)]
  simp

theorem columnFormatter_columnWidths_length (f : columnFormatter) :
    f.columnWidths.length = f.columns.length :=
  columnWidthsOf_length f.tableWidth f.columns

theorem gomod_eq_emod {a b : Int} (ha : 0 ≤ a) (hb : 0 ≤ b) : gomod a b = a % b :=
  Int.tmod_eq_emod ha hb

theorem linesOf_le_one {w : Int} (hw : 0 < w) {cell : Str}
    (hle : (cell.length : Int) ≤ w) : linesOf w cell ≤ 1 := by
  unfold linesOf
  rcases lt_or_eq_of_le hle with hlt | heq
  · rw [godiv_eq_ediv (by omega) hw.le, gomod_eq_emod (by omega) hw.le,
      Int.ediv_eq_zero_of_lt (by omega) hlt, Int.emod_eq_of_lt (by omega) hlt]
    by_cases h : (cell.length : Int) = 0 <;> simp [h]
  · rw [← heq, godiv_eq_ediv (by omega) (by omega), gomod_eq_emod (by omega) (by omega),
      Int.ediv_self (by omega), Int.emod_self]
    simp

theorem linesOf_eq_one {w : Int} (hw : 0 < w) {cell : Str}
    (hpos : 0 < cell.length) (hle : (cell.length : Int) ≤ w) : linesOf w cell = 1 := by
  have h1 := linesOf_le_one hw hle
  unfold linesOf at h1 ⊢
  rcases lt_or_eq_of_le hle with hlt | heq
  · rw [godiv_eq_ediv (by omega) hw.le, gomod_eq_emod (by omega) hw.le,
      Int.ediv_eq_zero_of_lt (by omega) hlt, Int.emod_eq_of_lt (by omega) hlt] at h1 ⊢
    have : ¬((cell.length : Int) = 0) := by omega
    simp [this]
  · rw [← heq, godiv_eq_ediv (by omega) (by omega), gomod_eq_emod (by omega) (by omega),
      Int.ediv_self (by omega), Int.emod_self]
    simp

theorem linesOf_drop {w : Int} (hw : 0 < w) {cell : Str}
    (hlt : w < (cell.length : Int)) :
    linesOf w (cell.drop w.toNat) + 1 = linesOf w cell := by
  have hlen : ((cell.drop w.toNat).length : Int) = (cell.length : Int) - w := by
    rw [List.length_drop]
    omega
  unfold linesOf
  rw [hlen]
  have hrest : (0 : Int) ≤ (cell.length : Int) - w := by omega
  rw [godiv_eq_ediv hrest hw.le, godiv_eq_ediv (by omega) hw.le,
    gomod_eq_emod hrest hw.le, gomod_eq_emod (by omega) hw.le]
  have hdiv : (cell.length : Int) / w = ((cell.length : Int) - w) / w + 1 := by
    conv_lhs => rw [show (cell.length : Int) = ((cell.length : Int) - w) + 1 * w by ring]
    rw [Int.add_mul_ediv_right _ _ (by omega : w ≠ 0)]
  have hmod : (cell.length : Int) % w = ((cell.length : Int) - w) % w := by
    conv_lhs => rw [show (cell.length : Int) = ((cell.length : Int) - w) + w * 1 by ring]
    rw [Int.add_mul_emod_self_left]
  rw [hdiv, hmod]
  by_cases h : ((cell.length : Int) - w) % w = 0
  · simp [h]
  · simp [h]
    omega

theorem maxLinesCalc_none_of_long (widths : List Int) :
    ∀ (row : List Str) (i : Nat) (acc : Int), widths.length < i + row.length →
      i ≤ widths.length → maxLinesCalc widths row i acc = none := by
  intro row
  induction row with
  | nil =>
    intro i acc h hle
    simp at h
    omega
  | cons cell rest ih =>
    intro i acc h hle
    unfold maxLinesCalc
    by_cases hi : i < widths.length
    · rw [List.getElem?_eq_getElem hi]
      by_cases hw : widths[i] = 0
      · simp [hw]
      · simp only [if_neg hw]
        exact ih (i + 1) _ (by simp at h; omega) (by omega)
    · rw [List.getElem?_eq_none (by omega)]

theorem maxLinesCalc_spec (widths : List Int) (hpos : ∀ w ∈ widths, 0 < w) :
    ∀ (row : List Str) (i : Nat) (acc : Int),
      i + row.length ≤ widths.length →
      ∃ m : Int, maxLinesCalc widths row i acc = some m ∧ acc ≤ m ∧
        ∀ (j : Nat) (cell : Str), row[j]? = some cell →
          ∀ w : Int, widths[i + j]? = some w → linesOf w cell ≤ m := by
  intro row
  induction row with
  | nil =>
    intro i acc _
    refine ⟨acc, rfl, le_refl _, fun j cell hj => ?_⟩
    simp at hj
  | cons cell rest ih =>
    intro i acc hle
    have hi : i < widths.length := by
      simp only [List.length_cons] at hle
      omega
    have hwpos : 0 < widths[i] := hpos widths[i] (List.getElem_mem hi)
    obtain ⟨m, hm, hacc, hj⟩ := ih (i + 1)
      (if acc < linesOf widths[i] cell then linesOf widths[i] cell else acc)
      (by simp only [List.length_cons] at hle; omega)
    refine ⟨m, ?_, ?_, ?_⟩
    · unfold maxLinesCalc
      rw [List.getElem?_eq_getElem hi]
      simp only [if_neg (by omega : ¬(widths[i] = 0))]
      exact hm
    · by_cases hc : acc < linesOf widths[i] cell
      · rw [if_pos hc] at hacc
        omega
      · rwa [if_neg hc] at hacc
    · intro j c hj2 w hw
      cases j with
      | zero =>
        simp only [List.getElem?_cons_zero] at hj2
        injection hj2 with hj2
        subst hj2
        have hidx : i + 0 = i := by omega
        rw [hidx, List.getElem?_eq_getElem hi] at hw
        injection hw with hw
        rw [← hw]
        by_cases hc : acc < linesOf widths[i] cell
        · rw [if_pos hc] at hacc
          omega
        · rw [if_neg hc] at hacc
          omega
      | succ j2 =>
        simp only [List.getElem?_cons_succ] at hj2
        have hidx : i + (j2 + 1) = (i + 1) + j2 := by omega
        rw [hidx] at hw
        exact hj j2 c hj2 w hw

theorem chunkCell_spec {w : Int} (hw : 0 < w) :
    ∀ (fuel : Nat) (cell : Str), cell.length < fuel →
      ∃ l : List Str, chunkCell w fuel cell = some l ∧
        1 ≤ l.length ∧
        (cell.length = 0 → l.length = 1) ∧
        (0 < cell.length → (l.length : Int) = linesOf w cell) ∧
        l.flatten = cell ++ List.replicate (l.length * w.toNat - cell.length) ' ' ∧
        cell.length ≤ l.length * w.toNat := by
  intro fuel
  induction fuel with
  | zero =>
    intro cell h
    omega
  | succ f ih =>
    intro cell hfl
    by_cases hlt : w < (cell.length : Int)
    · have hdlen : (cell.drop w.toNat).length = cell.length - w.toNat :=
        List.length_drop _ _
      obtain ⟨l2, hl2, hl2len, hl2zero, hl2lines, hl2flat, hl2bound⟩ :=
        ih (cell.drop w.toNat) (by omega)
      refine ⟨cell.take w.toNat :: l2, ?_, by simp, ?_, ?_, ?_, ?_⟩
      · unfold chunkCell
        rw [if_pos hlt, if_neg (by omega : ¬(w < 0)), hl2]
        rfl
      · intro h0
        omega
      · intro _
        have hdpos : 0 < (cell.drop w.toNat).length := by omega
        have := hl2lines hdpos
        have hstep := linesOf_drop hw hlt
        simp only [List.length_cons]
        push_cast
        omega
      · simp only [List.flatten_cons, hl2flat]
        have htd := List.take_append_drop w.toNat cell
        have hcount : l2.length * w.toNat - (cell.drop w.toNat).length =
            (cell.take w.toNat :: l2).length * w.toNat - cell.length := by
          simp only [List.length_cons]
          have hwle : w.toNat ≤ cell.length := by omega
          rw [hdlen]
          have : (l2.length + 1) * w.toNat = l2.length * w.toNat + w.toNat := by ring
          omega
        rw [← List.append_assoc, htd, hcount]
      · simp only [List.length_cons]
        have : (l2.length + 1) * w.toNat = l2.length * w.toNat + w.toNat := by ring
        omega
    · refine ⟨[cell ++ List.replicate (w - (cell.length : Int)).toNat ' '], ?_,
        by simp, fun _ => rfl, ?_, ?_, ?_⟩
      · unfold chunkCell
        rw [if_neg hlt]
      · intro hpos
        exact (linesOf_eq_one hw hpos (by omega)).symm
      · simp only [List.flatten_cons, List.flatten_nil, List.append_nil,
          List.length_cons, List.length_nil]
        congr 1
        congr 1
        omega
      · simp only [List.length_cons, List.length_nil]
        omega

theorem cellsSplit_spec (widths : List Int) (maxL : Nat) (hmaxL : 1 ≤ maxL)
    (hpos : ∀ w ∈ widths, 0 < w) :
    ∀ (row : List Str) (i : Nat),
      i + row.length ≤ widths.length →
      (∀ (j : Nat) (cell : Str), row[j]? = some cell →
        ∀ w : Int, widths[i + j]? = some w → linesOf w cell ≤ (maxL : Int)) →
      ∃ cols : List (List Str), cellsSplit widths maxL row i = some cols ∧
        cols.length = row.length ∧
        ∀ (j : Nat) (cell : Str), row[j]? = some cell →
          ∃ colj : List Str, cols[j]? = some colj ∧
            colj.flatten.take cell.length = cell := by
  intro row
  induction row with
  | nil =>
    intro i _ _
    refine ⟨[], rfl, rfl, fun j cell hj => ?_⟩
    simp at hj
  | cons cell rest ih =>
    intro i hle hbound
    have hi : i < widths.length := by
      simp only [List.length_cons] at hle
      omega
    have hwpos : 0 < widths[i] := hpos widths[i] (List.getElem_mem hi)
    obtain ⟨chunks, hch, hch1, hchz, hchl, hchflat, hchbound⟩ :=
      chunkCell_spec hwpos (cell.length + 1) cell (by omega)
    have hchle : chunks.length ≤ maxL := by
      rcases Nat.eq_zero_or_pos cell.length with h0 | hcp
      · have := hchz h0
        omega
      · have hlw := hchl hcp
        have hb := hbound 0 cell (by simp) widths[i]
          (by rw [show i + 0 = i by omega]; exact List.getElem?_eq_getElem hi)
        omega
    obtain ⟨cols2, hc2, hc2len, hc2pt⟩ := ih (i + 1)
      (by simp only [List.length_cons] at hle; omega)
      (fun j c hj w hw => hbound (j + 1) c (by simpa using hj) w
        (by rw [show i + (j + 1) = (i + 1) + j by omega]; exact hw))
    refine ⟨(chunks ++ List.replicate (maxL - chunks.length)
        (List.replicate widths[i].toNat ' ')) :: cols2, ?_, by simpa using hc2len, ?_⟩
    · unfold cellsSplit
      rw [List.getElem?_eq_getElem hi]
      dsimp only
      rw [hch]
      dsimp only
      rw [if_neg (by omega : ¬(maxL < chunks.length)), hc2]
    · intro j c hj
      cases j with
      | zero =>
        simp only [List.getElem?_cons_zero] at hj
        injection hj with hj
        subst hj
        refine ⟨chunks ++ List.replicate (maxL - chunks.length)
          (List.replicate widths[i].toNat ' '), by simp, ?_⟩
        rw [List.flatten_append, hchflat, List.append_assoc]
        exact List.take_left cell _
      | succ j2 =>
        simp only [List.getElem?_cons_succ] at hj ⊢
        exact hc2pt j2 c hj

theorem formatRow_structure (f : columnFormatter) (row : List Str)
    (hlen : row.length = f.columns.length)
    (hpos : ∀ w ∈ f.columnWidths, 0 < w) :
    ∃ (m : Int) (cols : List (List Str)),
      maxLinesCalc f.columnWidths row 0 1 = some m ∧ 1 ≤ m ∧
      cellsSplit f.columnWidths m.toNat row 0 = some cols ∧
      f.formatRow row = some (renderLines m.toNat cols) ∧
      cols.length = row.length ∧
      ∀ (j : Nat) (cell : Str), row[j]? = some cell →
        ∃ colj : List Str, cols[j]? = some colj ∧
          colj.flatten.take cell.length = cell := by
  have hwl : f.columnWidths.length = f.columns.length :=
    columnFormatter_columnWidths_length f
  have hle : 0 + row.length ≤ f.columnWidths.length := by omega
  obtain ⟨m, hm, hm1, hmb⟩ := maxLinesCalc_spec f.columnWidths hpos row 0 1 hle
  have hmt : 1 ≤ m.toNat := by omega
  have hbound : ∀ (j : Nat) (cell : Str), row[j]? = some cell →
      ∀ w : Int, f.columnWidths[0 + j]? = some w →
      linesOf w cell ≤ (m.toNat : Int) := by
    intro j cell hj w hw
    have := hmb j cell hj w hw
    omega
  obtain ⟨cols, hcs, hclen, hcpt⟩ :=
    cellsSplit_spec f.columnWidths m.toNat hmt hpos row 0 hle hbound
  refine ⟨m, cols, hm, hm1, hcs, ?_, hclen, hcpt⟩
  unfold columnFormatter.formatRow
  rw [hm]
  dsimp only
  rw [hcs]

/-- C3: for every row of the right length whose computed column widths
are all positive, the wrapping formatter succeeds, and for every cell,
concatenating that cell's column of chunk lines and discarding the
padding (the first `len(cell)` characters of the concatenation)
reconstructs the original cell content exactly. -/
theorem formatRow_wrap_roundtrip (f : columnFormatter) (row : List Str)
    (hlen : row.length = f.columns.length)
    (hpos : ∀ w ∈ f.columnWidths, 0 < w) :
    ∃ (m : Int) (cols : List (List Str)),
      f.formatRow row = some (renderLines m.toNat cols) ∧
      cellsSplit f.columnWidths m.toNat row 0 = some cols ∧
      cols.length = row.length ∧
      ∀ (j : Nat) (cell : Str), row[j]? = some cell →
        ∃ colj : List Str, cols[j]? = some colj ∧
          colj.flatten.take cell.length = cell := by
  obtain ⟨m, cols, _, _, hcs, hfr, hclen, hcpt⟩ := formatRow_structure f row hlen hpos
  exact ⟨m, cols, hfr, hcs, hclen, hcpt⟩

/-- Witness for C3: a two-column formatter at width 14 (both widths 6),
with one cell that wraps over two lines. -/
theorem formatRow_wrap_roundtrip_witness :
    ∃ (m : Int) (cols : List (List Str)),
      (columnFormatter.mk 14 [⟨"A", 0⟩, ⟨"B", 0⟩]).formatRow
        [['a', 'b', 'c', 'd', 'e', 'f', 'g', 'h'], ['x', 'y']] =
        some (renderLines m.toNat cols) ∧
      cellsSplit (columnFormatter.mk 14 [⟨"A", 0⟩, ⟨"B", 0⟩]).columnWidths m.toNat
        [['a', 'b', 'c', 'd', 'e', 'f', 'g', 'h'], ['x', 'y']] 0 = some cols ∧
      cols.length = ([['a', 'b', 'c', 'd', 'e', 'f', 'g', 'h'], ['x', 'y']] :
        List Str).length ∧
      ∀ (j : Nat) (cell : Str),
        ([['a', 'b', 'c', 'd', 'e', 'f', 'g', 'h'], ['x', 'y']] :
          List Str)[j]? = some cell →
        ∃ colj : List Str, cols[j]? = some colj ∧
          colj.flatten.take cell.length = cell :=
  formatRow_wrap_roundtrip (columnFormatter.mk 14 [⟨"A", 0⟩, ⟨"B", 0⟩])
    [['a', 'b', 'c', 'd', 'e', 'f', 'g', 'h'], ['x', 'y']] (by decide) (by decide)

theorem maxLinesCalc_one (widths : List Int) (hpos : ∀ w ∈ widths, 0 < w) :
    ∀ (row : List Str) (i : Nat),
      i + row.length ≤ widths.length →
      (∀ (j : Nat) (cell : Str), row[j]? = some cell →
        ∀ w : Int, widths[i + j]? = some w → (cell.length : Int) ≤ w) →
      maxLinesCalc widths row i 1 = some 1 := by
  intro row
  induction row with
  | nil =>
    intro i _ _
    rfl
  | cons cell rest ih =>
    intro i hle hshort
    have hi : i < widths.length := by
      simp only [List.length_cons] at hle
      omega
    have hwpos : 0 < widths[i] := hpos _ (List.getElem_mem hi)
    have hsh := hshort 0 cell (by simp) widths[i]
      (by rw [show i + 0 = i by omega]; exact List.getElem?_eq_getElem hi)
    have hlin : linesOf widths[i] cell ≤ 1 := linesOf_le_one hwpos hsh
    unfold maxLinesCalc
    rw [List.getElem?_eq_getElem hi]
    dsimp only
    rw [if_neg (by omega : ¬(widths[i] = 0)),
      if_neg (by omega : ¬((1 : Int) < linesOf widths[i] cell))]
    exact ih (i + 1) (by simp only [List.length_cons] at hle; omega)
      fun j c hj w hw => hshort (j + 1) c (by simpa using hj) w
        (by rw [show i + (j + 1) = (i + 1) + j by omega]; exact hw)

theorem cellsSplit_one (widths : List Int) (hpos : ∀ w ∈ widths, 0 < w) :
    ∀ (row : List Str) (i : Nat),
      i + row.length ≤ widths.length →
      (∀ (j : Nat) (cell : Str), row[j]? = some cell →
        ∀ w : Int, widths[i + j]? = some w → (cell.length : Int) ≤ w) →
      cellsSplit widths 1 row i =
        some (List.zipWith (fun cell w => [padCell w cell]) row (widths.drop i)) := by
  intro row
  induction row with
  | nil =>
    intro i _ _
    simp [cellsSplit]
  | cons cell rest ih =>
    intro i hle hshort
    have hi : i < widths.length := by
      simp only [List.length_cons] at hle
      omega
    have hwpos : 0 < widths[i] := hpos _ (List.getElem_mem hi)
    have hsh := hshort 0 cell (by simp) widths[i]
      (by rw [show i + 0 = i by omega]; exact List.getElem?_eq_getElem hi)
    have hdrop : widths.drop i = widths[i] :: widths.drop (i + 1) :=
      List.drop_eq_getElem_cons hi
    have hchunk : chunkCell widths[i] (cell.length + 1) cell =
        some [padCell widths[i] cell] := by
      unfold chunkCell
      rw [if_neg (by omega : ¬(widths[i] < (cell.length : Int)))]
      rfl
    unfold cellsSplit
    rw [List.getElem?_eq_getElem hi]
    dsimp only
    rw [hchunk]
    dsimp only
    rw [if_neg (by simp : ¬(1 < ([padCell widths[i] cell] : List Str).length)),
      ih (i + 1) (by simp only [List.length_cons] at hle; omega)
        (fun j c hj w hw => hshort (j + 1) c (by simpa using hj) w
          (by rw [show i + (j + 1) = (i + 1) + j by omega]; exact hw))]
    dsimp only
    rw [hdrop]
    simp [List.zipWith]

theorem renderLines_one (cols : List (List Str)) :
    renderLines 1 cols =
      List.intercalate [' ', ' '] (cols.map fun c => c.getD 0 []) ++ ['\n'] := by
  unfold renderLines
  rw [show List.range 1 = [0] by decide]
  simp

/-- C4: when every cell fits its column width (all widths positive, row
length equal to the column count), `formatRow` emits exactly one output
line: each cell right-padded with spaces to its column width, cells
joined by the two-space separator, terminated by a newline. -/
theorem formatRow_short_cells (f : columnFormatter) (row : List Str)
    (hlen : row.length = f.columns.length)
    (hpos : ∀ w ∈ f.columnWidths, 0 < w)
    (hshort : ∀ (j : Nat) (cell : Str), row[j]? = some cell →
      ∀ w : Int, f.columnWidths[j]? = some w → (cell.length : Int) ≤ w) :
    f.formatRow row = some (List.intercalate [' ', ' ']
      (List.zipWith (fun cell w => padCell w cell) row f.columnWidths) ++ ['\n']) := by
  have hwl := columnFormatter_columnWidths_length f
  have hle : 0 + row.length ≤ f.columnWidths.length := by omega
  have hshort0 : ∀ (j : Nat) (cell : Str), row[j]? = some cell →
      ∀ w : Int, f.columnWidths[0 + j]? = some w → (cell.length : Int) ≤ w := by
    intro j cell hj w hw
    exact hshort j cell hj w (by simpa using hw)
  have hm := maxLinesCalc_one f.columnWidths hpos row 0 hle hshort0
  have hs := cellsSplit_one f.columnWidths hpos row 0 hle hshort0
  unfold columnFormatter.formatRow
  rw [hm]
  dsimp only
  rw [show (1 : Int).toNat = 1 from rfl, hs]
  dsimp only
  rw [renderLines_one]
  simp [List.map_zipWith]

/-- Witness for C4: two short cells at widths `[6, 6]` come out as one
padded, two-space-separated, newline-terminated line. -/
theorem formatRow_short_cells_witness :
    (columnFormatter.mk 14 [⟨"A", 0⟩, ⟨"B", 0⟩]).formatRow
      [['a', 'b'], ['c', 'd', 'e', 'f']] =
      some (List.intercalate [' ', ' ']
        (List.zipWith (fun cell w => padCell w cell)
          [['a', 'b'], ['c', 'd', 'e', 'f']]
          (columnFormatter.mk 14 [⟨"A", 0⟩, ⟨"B", 0⟩]).columnWidths) ++ ['\n']) :=
  formatRow_short_cells (columnFormatter.mk 14 [⟨"A", 0⟩, ⟨"B", 0⟩])
    [['a', 'b'], ['c', 'd', 'e', 'f']] (by decide) (by decide)
    (by
      intro j cell hj w hw
      have h6 : (columnFormatter.mk 14 [⟨"A", 0⟩, ⟨"B", 0⟩]).columnWidths =
          [6, 6] := by decide
      rw [h6] at hw
      match j with
      | 0 =>
        simp at hj hw
        subst hj
        subst hw
        decide
      | 1 =>
        simp at hj hw
        subst hj
        subst hw
        decide
      | (j + 2) => simp at hj)

/-- C8 (amended): a row strictly longer than the column count makes
`formatRow` abort (the source panics indexing past the width array;
modelled as `none`), so over-long rows are never silently truncated.
Rows shorter than the column count, however, are silently formatted
with only the given cells (see the counterexample). -/
theorem formatRow_long_row_fails (f : columnFormatter) (row : List Str)
    (hlen : f.columns.length < row.length) : f.formatRow row = none := by
  have hwl := columnFormatter_columnWidths_length f
  have hm := maxLinesCalc_none_of_long f.columnWidths row 0 1 (by omega) (by omega)
  unfold columnFormatter.formatRow
  rw [hm]

/-- C8 counterexample: a one-cell row against a two-column formatter is
formatted without any error — the mismatch is not detected, the output
simply has one column. -/
theorem formatRow_short_row_silent_cex :
    (columnFormatter.mk 14 [⟨"A", 0⟩, ⟨"B", 0⟩]).formatRow [['a', 'b']] =
      some ['a', 'b', ' ', ' ', ' ', ' ', '\n'] ∧
    ([['a', 'b']] : List Str).length ≠
      (columnFormatter.mk 14 [⟨"A", 0⟩, ⟨"B", 0⟩]).columns.length := by
  decide

/-- Witness for the amended C8: a three-cell row against two columns
fails with `none`. -/
theorem formatRow_long_row_fails_witness :
    (columnFormatter.mk 14 [⟨"A", 0⟩, ⟨"B", 0⟩]).formatRow
      [['a'], ['b'], ['c']] = none :=
  formatRow_long_row_fails (columnFormatter.mk 14 [⟨"A", 0⟩, ⟨"B", 0⟩])
    [['a'], ['b'], ['c']] (by decide)

/-- C10: at a small total width (2 columns, width 2) the allocator
returns zero widths; the first pass of `formatRow` then divides a cell
length by that zero width, a runtime panic (`none`).  The formatter is
total whenever every computed column width is positive (and the row
length matches the column count). -/
theorem formatRow_zero_width_and_totality :
    (columnWidthsOf 2 [⟨"A", 0⟩, ⟨"B", 0⟩] = [0, 0] ∧
     maxLinesCalc (columnFormatter.mk 2 [⟨"A", 0⟩, ⟨"B", 0⟩]).columnWidths
       [['a'], ['b']] 0 1 = none ∧
     (columnFormatter.mk 2 [⟨"A", 0⟩, ⟨"B", 0⟩]).formatRow [['a'], ['b']] = none) ∧
    ∀ (f : columnFormatter) (row : List Str), row.length = f.columns.length →
      (∀ w ∈ f.columnWidths, 0 < w) → (f.formatRow row).isSome := by
  refine ⟨by decide, fun f row hlen hpos => ?_⟩
  obtain ⟨m, cols, _, _, _, hfr, _, _⟩ := formatRow_structure f row hlen hpos
  rw [hfr]
  rfl

/-- Witness for C10's totality half at a concrete positive-width
formatter and row. -/
theorem formatRow_zero_width_and_totality_witness :
    (((columnFormatter.mk 14 [⟨"A", 0⟩, ⟨"B", 0⟩]).formatRow
      [['a', 'b'], ['c', 'd', 'e', 'f']]).isSome : Bool) = true :=
  formatRow_zero_width_and_totality.2 (columnFormatter.mk 14 [⟨"A", 0⟩, ⟨"B", 0⟩])
    [['a', 'b'], ['c', 'd', 'e', 'f']] (by decide) (by decide)

/-- C6: a path that parses as a secret path (and therefore, for the
real parsers, not as a repository path) and carries an explicit version
selector makes the orchestrator fail with the distinguished
version-audit-unsupported error while performing no client construction
and no network call at all (empty effect trace: no client, no directory
lookup, no event iterator). -/
theorem audit_version_selector_rejected_early (env : AuditClientEnv) (p : AuditPath)
    (hrepo : p.repoPath = none) (hsecret : p.secretPath.isSome = true)
    (hver : p.hasVersion = true) :
    (iterAndAuditTable env p).1 = .error .cannotAuditSecretVersion ∧
    (iterAndAuditTable env p).2 = [] := by
  obtain ⟨sp, hsp⟩ := Option.isSome_iff_exists.mp hsecret
  unfold iterAndAuditTable
  rw [hrepo, hsp]
  simp [hver]

/-- Witness for C6 at a concrete path and environment. -/
theorem audit_version_selector_rejected_early_witness :
    (iterAndAuditTable ⟨true, true, some false⟩
      ⟨none, some "ns/repo/secret:1", true⟩).1 = .error .cannotAuditSecretVersion ∧
    (iterAndAuditTable ⟨true, true, some false⟩
      ⟨none, some "ns/repo/secret:1", true⟩).2 = [] :=
  audit_version_selector_rejected_early ⟨true, true, some false⟩
    ⟨none, some "ns/repo/secret:1", true⟩ rfl rfl rfl

/-- C9: a secret path without a version selector that resolves to an
existing directory makes the orchestrator fail with the distinguished
cannot-audit-directory error, and no event iterator of either kind is
constructed. -/
theorem audit_directory_rejected (env : AuditClientEnv) (p : AuditPath)
    (hrepo : p.repoPath = none) (hsecret : p.secretPath.isSome = true)
    (hver : p.hasVersion = false) (hclient : env.clientOk = true)
    (hdir : env.dirExists = some true) :
    (iterAndAuditTable env p).1 = .error .cannotAuditDir ∧
    NetCall.secretEventIterator ∉ (iterAndAuditTable env p).2 ∧
    NetCall.repoEventIterator ∉ (iterAndAuditTable env p).2 := by
  obtain ⟨sp, hsp⟩ := Option.isSome_iff_exists.mp hsecret
  unfold iterAndAuditTable
  rw [hrepo, hsp]
  simp [hver, hclient, hdir]

/-- Witness for C9 at a concrete path and environment. -/
theorem audit_directory_rejected_witness :
    (iterAndAuditTable ⟨true, true, some true⟩
      ⟨none, some "ns/repo/dir", false⟩).1 = .error .cannotAuditDir ∧
    NetCall.secretEventIterator ∉ (iterAndAuditTable ⟨true, true, some true⟩
      ⟨none, some "ns/repo/dir", false⟩).2 ∧
    NetCall.repoEventIterator ∉ (iterAndAuditTable ⟨true, true, some true⟩
      ⟨none, some "ns/repo/dir", false⟩).2 :=
  audit_directory_rejected ⟨true, true, some true⟩
    ⟨none, some "ns/repo/dir", false⟩ rfl rfl rfl rfl rfl

/-- C7: once the pager's done notification has fired, the very next
`IsClosed` returns true without any prior `Close` and latches the
closed flag; on a latched writer every further `IsClosed` returns true
and changes nothing (the state is never un-set), and a `Close` on a
latched writer returns without blocking. -/
theorem paginatedWriter_done_latches (p : paginatedWriter) :
    ((p.fireDone).IsClosed).1 = true ∧
    ((p.fireDone).IsClosed).2.closed = true ∧
    (∀ q : paginatedWriter, q.closed = true →
      (q.IsClosed.1 = true ∧ q.IsClosed.2 = q ∧ (q.Close).1 = false)) := by
  refine ⟨?_, ?_, fun q hq => ?_⟩
  · unfold paginatedWriter.fireDone paginatedWriter.IsClosed
    by_cases h : p.closed <;> simp [h]
  · unfold paginatedWriter.fireDone paginatedWriter.IsClosed
    by_cases h : p.closed <;> simp [h]
  · unfold paginatedWriter.IsClosed paginatedWriter.Close
    simp [hq]

/-- Witness for C7: starting from the open state, fire the done
notification, observe `IsClosed` latch, and check the latched state. -/
theorem paginatedWriter_done_latches_witness :
    (((paginatedWriter.mk false false false).fireDone).IsClosed).1 = true ∧
    ((paginatedWriter.mk true false true).IsClosed.1 = true ∧
      (paginatedWriter.mk true false true).IsClosed.2 =
        paginatedWriter.mk true false true ∧
      ((paginatedWriter.mk true false true).Close).1 = false) :=
  ⟨(paginatedWriter_done_latches (paginatedWriter.mk false false false)).1,
   (paginatedWriter_done_latches (paginatedWriter.mk false false false)).2.2
     (paginatedWriter.mk true false true) rfl⟩

theorem lookupPair_insertPair (k0 k v : Str) :
    ∀ m : List (Str × Str), lookupPair k0 (insertPair k v m) =
      if k0 = k then some v else lookupPair k0 m := by
  intro m
  induction m with
  | nil => simp [insertPair, lookupPair]
  | cons p rest ih =>
    obtain ⟨k2, v2⟩ := p
    unfold insertPair
    by_cases h1 : k = k2
    · subst h1
      rw [if_pos rfl]
      by_cases h3 : k0 = k <;> simp [lookupPair, h3]
    · rw [if_neg h1]
      by_cases h2 : keyLt k k2 = true
      · rw [if_pos h2]
        by_cases h3 : k0 = k <;> simp [lookupPair, h3]
      · rw [if_neg h2]
        show (if k0 = k2 then some v2 else lookupPair k0 (insertPair k v rest)) = _
        rw [ih]
        by_cases h3 : k0 = k2
        · have h4 : ¬(k0 = k) := fun h => h1 (by rw [← h]; exact h3)
          have h5 : ¬(k2 = k) := fun h => h1 h.symm
          simp [h3, h4, h5, lookupPair]
        · by_cases h4 : k0 = k <;> simp [h3, h4, h1, lookupPair]

theorem lookupPair_foldl_not_mem (k0 : Str) :
    ∀ (l : List (Str × Str)) (m : List (Str × Str)),
      (∀ p ∈ l, p.1 ≠ k0) →
      lookupPair k0 (l.foldl (fun m kv => insertPair kv.1 kv.2 m) m) =
        lookupPair k0 m := by
  intro l
  induction l with
  | nil =>
    intro m _
    rfl
  | cons p rest ih =>
    intro m hn
    simp only [List.foldl_cons]
    rw [ih _ fun q hq => hn q (List.mem_cons_of_mem p hq), lookupPair_insertPair]
    rw [if_neg fun h => hn p (List.mem_cons_self p rest) h.symm]

theorem lookupPair_fold_zip (k : Str) :
    ∀ (fields row : List Str) (m : List (Str × Str)) (i : Nat) (cell : Str),
      fields.Nodup → fields.length = row.length →
      fields[i]? = some k → row[i]? = some cell →
      lookupPair k ((fields.zip row).foldl
        (fun m kv => insertPair kv.1 kv.2 m) m) = some cell := by
  intro fields
  induction fields with
  | nil =>
    intro row m i cell _ _ hk
    simp at hk
  | cons f ft ih =>
    intro row m i cell hnd hlen hk hc
    cases row with
    | nil => simp at hlen
    | cons r rt =>
      simp only [List.zip_cons_cons, List.foldl_cons]
      cases i with
      | zero =>
        simp only [List.getElem?_cons_zero] at hk hc
        injection hk with hk
        injection hc with hc
        subst hk
        subst hc
        have hknot : ∀ p ∈ ft.zip rt, p.1 ≠ f := by
          intro p hp hpk
          have hmem : p.1 ∈ ft := (List.of_mem_zip hp).1
          rw [hpk] at hmem
          exact (List.nodup_cons.mp hnd).1 hmem
        rw [lookupPair_foldl_not_mem f (ft.zip rt) _ hknot, lookupPair_insertPair]
        simp
      | succ i2 =>
        simp only [List.getElem?_cons_succ] at hk hc
        exact ih rt (insertPair f r m) i2 cell (List.nodup_cons.mp hnd).2
          (by simpa using hlen) hk hc

theorem lookupPair_buildMap_some (fields row : List Str)
    (hnd : fields.Nodup) (hlen : fields.length = row.length)
    (i : Nat) (k cell : Str) (hk : fields[i]? = some k)
    (hc : row[i]? = some cell) :
    lookupPair k (buildMap fields row) = some cell :=
  lookupPair_fold_zip k fields row [] i cell hnd hlen hk hc

theorem lookupPair_buildMap_isSome (fields row : List Str)
    (hnd : fields.Nodup) (hlen : fields.length = row.length) (k : Str) :
    (lookupPair k (buildMap fields row)).isSome = true ↔ k ∈ fields := by
  constructor
  · intro h
    by_contra hk
    have hknot : ∀ p ∈ fields.zip row, p.1 ≠ k := by
      intro p hp hpk
      exact hk (hpk ▸ (List.of_mem_zip hp).1)
    unfold buildMap at h
    rw [lookupPair_foldl_not_mem k _ _ hknot] at h
    simp [lookupPair] at h
  · intro hk
    obtain ⟨i, hi⟩ := List.getElem?_of_mem hk
    have hil : i < fields.length := (List.getElem?_eq_some.mp hi).1
    have hrl : i < row.length := by omega
    have hc : row[i]? = some row[i] := List.getElem?_eq_getElem hrl
    rw [lookupPair_buildMap_some fields row hnd hlen i k row[i] hi hc]
    rfl

theorem escape_no_newline (s : Str) : '\n' ∉ escape s := by
  induction s with
  | nil => simp [escape]
  | cons c rest ih =>
    simp only [escape, List.map_cons, List.flatten_cons] at ih ⊢
    intro h
    rcases List.mem_append.mp h with h1 | h2
    · unfold escapeChar at h1
      by_cases hq : c = '"' ∨ c = '\\'
      · rw [if_pos hq] at h1
        rcases hq with h | h <;> subst h <;> simp at h1
      · rw [if_neg hq] at h1
        by_cases hn : c = '\n'
        · rw [if_pos hn] at h1
          simp at h1
        · rw [if_neg hn] at h1
          simp at h1
          exact hn h1.symm
    · exact ih h2

theorem encodePair_no_newline (p : Str × Str) : '\n' ∉ encodePair p := by
  unfold encodePair
  intro h
  rcases List.mem_append.mp h with h | h
  · rcases List.mem_append.mp h with h | h
    · rcases List.mem_cons.mp h with h | h
      · exact absurd h (by decide)
      · exact escape_no_newline p.1 h
    · rcases List.mem_cons.mp h with h | h
      · exact absurd h (by decide)
      rcases List.mem_cons.mp h with h | h
      · exact absurd h (by decide)
      rcases List.mem_cons.mp h with h | h
      · exact absurd h (by decide)
      · exact escape_no_newline p.2 h
  · exact absurd h (by decide)

theorem mem_intercalate_comma {c : Char} :
    ∀ ls : List Str, c ∈ List.intercalate [','] ls →
      c = ',' ∨ ∃ l ∈ ls, c ∈ l := by
  intro ls
  induction ls with
  | nil =>
    intro h
    simp [List.intercalate] at h
  | cons x rest ih =>
    cases rest with
    | nil =>
      intro h
      simp [List.intercalate] at h
      exact Or.inr ⟨x, by simp, h⟩
    | cons y t =>
      intro h
      simp only [List.intercalate, List.intersperse_cons_cons,
        List.flatten_cons] at h ih
      rcases List.mem_append.mp h with h1 | h2
      · exact Or.inr ⟨x, by simp, h1⟩
      rcases List.mem_append.mp h2 with h3 | h4
      · simp at h3
        exact Or.inl h3
      · rcases ih h4 with h5 | ⟨l, hl, hcl⟩
        · exact Or.inl h5
        · exact Or.inr ⟨l, List.mem_cons_of_mem x hl, hcl⟩

theorem encodeObj_no_newline (ps : List (Str × Str)) : '\n' ∉ encodeObj ps := by
  unfold encodeObj
  intro h
  rcases List.mem_append.mp h with h | h
  · rcases List.mem_cons.mp h with h | h
    · exact absurd h (by decide)
    · rcases mem_intercalate_comma _ h with h1 | ⟨l, hl, hcl⟩
      · exact absurd h1 (by decide)
      · obtain ⟨p, _, rfl⟩ := List.mem_map.mp hl
        exact encodePair_no_newline p hcl
  · exact absurd h (by decide)

/-- C5, amended with pairwise-distinct field names (with a duplicated
field name the Go map keeps only the last same-named cell, so the
index-0 pairing is dropped; see the counterexample): the structured
formatter errors exactly when the field-name count differs from the row
length; on matching lengths and distinct names the output is a single
newline-terminated line encoding a record that pairs every field name
with the cell at the same index, with no field dropped or padded (the
record's keys are exactly the field names). -/
theorem jsonFormatter_formatRow_spec (f : jsonFormatter) (row : List Str) :
    (f.formatRow row = none ↔ f.fields.length ≠ row.length) ∧
    (f.fields.length = row.length → f.fields.Nodup →
      f.formatRow row = some (encodeObj (buildMap f.fields row) ++ ['\n']) ∧
      '\n' ∉ encodeObj (buildMap f.fields row) ∧
      (∀ (i : Nat) (k cell : Str), f.fields[i]? = some k → row[i]? = some cell →
        lookupPair k (buildMap f.fields row) = some cell) ∧
      (∀ k : Str, (lookupPair k (buildMap f.fields row)).isSome = true ↔
        k ∈ f.fields)) := by
  constructor
  · unfold jsonFormatter.formatRow
    by_cases h : f.fields.length ≠ row.length <;> simp [h]
  · intro hlen hnd
    refine ⟨?_, encodeObj_no_newline _, ?_,
      fun k => lookupPair_buildMap_isSome _ _ hnd hlen k⟩
    · unfold jsonFormatter.formatRow
      rw [if_neg (by omega)]
    · intro i k cell hk hc
      exact lookupPair_buildMap_some f.fields row hnd hlen i k cell hk hc

/-- Witness for C5 at fields `["A", "B"]` and row `["x", "y"]`. -/
theorem jsonFormatter_formatRow_spec_witness :
    ((jsonFormatter.mk [['A'], ['B']]).formatRow [['x'], ['y']] =
      some (encodeObj (buildMap [['A'], ['B']] [['x'], ['y']]) ++ ['\n'])) ∧
    lookupPair ['A'] (buildMap [['A'], ['B']] [['x'], ['y']]) = some ['x'] := by
  have h := (jsonFormatter_formatRow_spec (jsonFormatter.mk [['A'], ['B']])
    [['x'], ['y']]).2 (by decide) (by decide)
  exact ⟨h.1, h.2.2.1 0 ['A'] ['x'] (by decide) (by decide)⟩

/-- C5 counterexample: with the duplicated field list `["A", "A"]` and
row `["x", "y"]`, `formatRow` succeeds but the encoded record binds
`"A"` to `"y"` only — the pairing of field index 0 with `"x"` is
dropped, so the claim fails as stated for arbitrary field lists. -/
theorem jsonFormatter_duplicate_field_cex :
    (jsonFormatter.mk [['A'], ['A']]).formatRow [['x'], ['y']] =
      some (encodeObj [(['A'], ['y'])] ++ ['\n']) ∧
    ([['A'], ['A']] : List Str)[0]? = some ['A'] ∧
    ([['x'], ['y']] : List Str)[0]? = some ['x'] ∧
    lookupPair ['A'] (buildMap [['A'], ['A']] [['x'], ['y']]) = some ['y'] ∧
    ¬(lookupPair ['A'] (buildMap [['A'], ['A']] [['x'], ['y']]) = some ['x']) := by
  decide

end SecretHubCLI
